import Mathlib

/-!
Verification of the data-cleaning core of the Excel-Agent API.

The three normalization functions (`clean_company_name`, `extract_emails`,
`parse_address`) and the bulk row-processing loop of `upload_excel` from
`src/main.py` are embedded as executable Lean functions over `List Char`
(Python strings are modelled as character lists, ASCII semantics for
whitespace and case mapping).
-/

namespace ExcelAgent

/-- Convert a Lean string literal to the character-list model. -/
def chars (s : String) : List Char := s.data

/-- ASCII whitespace, as recognised by Python `str.split()` / `str.strip()`
(space, tab, newline, carriage return, vertical tab, form feed). -/
def pyIsSpace (c : Char) : Bool :=
  c == ' ' || c == '\t' || c == '\n' || c == '\r' ||
  c == Char.ofNat 11 || c == Char.ofNat 12

/-- Python `str.strip()`: drop leading and trailing whitespace. -/
def pyStrip (s : List Char) : List Char :=
  ((s.dropWhile pyIsSpace).reverse.dropWhile pyIsSpace).reverse

/-- Worker for Python `str.split()` (no separator argument): `cur` holds the
characters of the word currently being read, in reverse order. -/
def pySplitAux (cur : List Char) : List Char → List (List Char)
  | [] => if cur.isEmpty then [] else [cur.reverse]
  | c :: rest =>
    if pyIsSpace c then
      if cur.isEmpty then pySplitAux [] rest
      else cur.reverse :: pySplitAux [] rest
    else pySplitAux (c :: cur) rest

/-- Python `str.split()` with no argument: split on runs of whitespace,
discarding empty pieces. -/
def pySplit (s : List Char) : List (List Char) := pySplitAux [] s

/-- Join a list of words with a single space between them, as
`" ".join(words)` does. -/
def joinSpace : List (List Char) → List Char
  | [] => []
  | [w] => w
  | w :: ws => w ++ ' ' :: joinSpace ws

/-- Join a list of strings with `", "` between them, as `", ".join(es)`
does on line 116 of `src/main.py`. -/
def joinEmails : List (List Char) → List Char
  | [] => []
  | [w] => w
  | w :: ws => w ++ ',' :: ' ' :: joinEmails ws

/-- Line 41 of `src/main.py`: `re.sub(r"[.,]", "", name)` removes every
dot and comma. -/
def depunct (s : List Char) : List Char :=
  s.filter (fun c => !(c == '.' || c == ','))

/-- ASCII uppercase mapping of one character, modelling Python
`str.upper()` on the ASCII range. -/
def upperChar (c : Char) : Char :=
  if 'a' ≤ c ∧ c ≤ 'z' then Char.ofNat (c.toNat - 32) else c

/-- Python `str.upper()` over the character-list model. -/
def pyUpper (s : List Char) : List Char := s.map upperChar

/-- The fixed legal-suffix list of `clean_company_name` (line 44 of
`src/main.py`). -/
def suffixes : List (List Char) :=
  [chars "LLC", chars "INC", chars "CORP", chars "LTD",
   chars "INCORPORATED", chars "CORPORATION", chars "LIMITED"]

/-- `clean_company_name` (lines 39-48 of `src/main.py`): strip dots and
commas, split on whitespace, drop tokens whose uppercase form is a known
legal suffix, rejoin with single spaces, strip. -/
def clean_company_name (name : List Char) : List Char :=
  pyStrip (joinSpace
    ((pySplit (depunct name)).filter (fun w => !(decide (pyUpper w ∈ suffixes)))))

/-- Python `str.split(",")`: split on every comma, keeping empty pieces
(so the result is always nonempty). -/
def splitComma : List Char → List (List Char)
  | [] => [[]]
  | c :: rest =>
    if c = ',' then [] :: splitComma rest
    else
      match splitComma rest with
      | [] => [[c]]
      | w :: ws => (c :: w) :: ws

/-- The record returned by `parse_address`: four individually optional
fields. -/
structure ParsedAddress where
  street : Option (List Char)
  city : Option (List Char)
  state : Option (List Char)
  zip_code : Option (List Char)
deriving DecidableEq

/-- `parse_address` (lines 55-72 of `src/main.py`): split on commas; with
fewer than 3 parts all fields are `none`; otherwise street and city are the
first two parts stripped, and state / zip are the first / second whitespace
tokens of the stripped third part when they exist. -/
def parse_address (address : List Char) : ParsedAddress :=
  match splitComma address with
  | p0 :: p1 :: p2 :: _ =>
    let state_zip := pySplit (pyStrip p2)
    let state := if h : 1 ≤ state_zip.length then some (state_zip.get ⟨0, h⟩) else none
    let zip_code := if h : 2 ≤ state_zip.length then some (state_zip.get ⟨1, h⟩) else none
    ⟨some (pyStrip p0), some (pyStrip p1), state, zip_code⟩
  | _ => ⟨none, none, none, none⟩

/-- ASCII letter or digit. -/
def isAlnumChar (c : Char) : Bool :=
  ('a' ≤ c && c ≤ 'z') || ('A' ≤ c && c ≤ 'Z') || ('0' ≤ c && c ≤ '9')

/-- The character class `[a-zA-Z0-9_.+-]` of the local part of the email
pattern on line 52 of `src/main.py`. -/
def isLocalChar (c : Char) : Bool :=
  isAlnumChar c || c == '_' || c == '.' || c == '+' || c == '-'

/-- The character class `[a-zA-Z0-9-]` of the domain part. -/
def isDomainChar (c : Char) : Bool := isAlnumChar c || c == '-'

/-- The character class `[a-zA-Z0-9-.]` of the part after the first dot. -/
def isTldChar (c : Char) : Bool := isAlnumChar c || c == '-' || c == '.'

/-- Try to match `[a-zA-Z0-9_.+-]+@[a-zA-Z0-9-]+\.[a-zA-Z0-9-.]+` at the
head of `s`, returning the matched text and the remainder.  Because `@`
is outside the local class and `.` is outside the domain class,
backtracking over the greedy `+` repetitions can never succeed, so the
greedy scan below is exactly the Python regex semantics for this
pattern. -/
def matchAt (s : List Char) : Option (List Char × List Char) :=
  let lpart := s.takeWhile isLocalChar
  let r1 := s.dropWhile isLocalChar
  if lpart = [] ∨ r1.head? ≠ some '@' then none
  else
    let r2 := r1.tail
    let dpart := r2.takeWhile isDomainChar
    let r3 := r2.dropWhile isDomainChar
    if dpart = [] ∨ r3.head? ≠ some '.' then none
    else
      let r4 := r3.tail
      let tpart := r4.takeWhile isTldChar
      if tpart = [] then none
      else some (lpart ++ '@' :: (dpart ++ '.' :: tpart), r4.dropWhile isTldChar)

/-- Fuelled scan of `re.findall`: at each position try `matchAt`; on a
match record `(start, stop, text)` and resume after it, otherwise advance
one character.  `fuel` bounds the recursion and is irrelevant once it is
at least the length of the remaining text. -/
def findallPosFuel : Nat → Nat → List Char → List (Nat × Nat × List Char)
  | 0, _, _ => []
  | _ + 1, _, [] => []
  | fuel + 1, i, c :: rest =>
    match matchAt (c :: rest) with
    | some (m, r) => (i, i + m.length, m) :: findallPosFuel fuel (i + m.length) r
    | none => findallPosFuel fuel (i + 1) rest

/-- Positions and texts of all regex matches, scanning left to right. -/
def findallPos (i : Nat) (s : List Char) : List (Nat × Nat × List Char) :=
  findallPosFuel s.length i s

/-- `extract_emails` (lines 50-53 of `src/main.py`): strip the paragraph,
then `re.findall` of the email pattern. -/
def extract_emails (paragraph : List Char) : List (List Char) :=
  (findallPos 0 (pyStrip paragraph)).map (fun e => e.2.2)

/-- Declarative reading of the email pattern: a nonempty local part, `@`,
a nonempty domain part, `.`, a nonempty tail, with each part drawn from
its character class. -/
def EmailShape (m : List Char) : Prop :=
  ∃ l d t, l ≠ [] ∧ d ≠ [] ∧ t ≠ [] ∧
    (∀ c ∈ l, isLocalChar c = true) ∧
    (∀ c ∈ d, isDomainChar c = true) ∧
    (∀ c ∈ t, isTldChar c = true) ∧
    m = l ++ '@' :: (d ++ '.' :: t)

/-- The recorded match intervals are well formed, strictly ordered and
pairwise disjoint. -/
def Nonoverlapping : List (Nat × Nat × List Char) → Prop
  | [] => True
  | [e] => e.1 < e.2.1
  | e1 :: e2 :: rest => e1.1 < e1.2.1 ∧ e1.2.1 ≤ e2.1 ∧ Nonoverlapping (e2 :: rest)

/-- One spreadsheet row after the three source cells have been coerced to
text (lines 106-108 of `src/main.py`). -/
structure RawRow where
  company : List Char
  emailText : List Char
  address : List Char
deriving DecidableEq

/-- One output row of the bulk path, with the column values of the dict
appended on lines 114-121 / 124-131 of `src/main.py`. -/
structure OutRow where
  companyName : List Char
  emails : List Char
  street : Option (List Char)
  city : Option (List Char)
  state : Option (List Char)
  zip_code : Option (List Char)
deriving DecidableEq

/-- The success branch of the bulk loop body (lines 110-121 of
`src/main.py`). -/
def processRow (r : RawRow) : OutRow :=
  let addr := parse_address r.address
  { companyName := clean_company_name r.company
    emails := joinEmails (extract_emails r.emailText)
    street := addr.street
    city := addr.city
    state := addr.state
    zip_code := addr.zip_code }

/-- The except branch of the bulk loop body (lines 123-131 of
`src/main.py`): sentinel `"ERROR"` in the emails column, all address
columns absent, company column holding the raw company text already read
for the row. -/
def errorRow (company : List Char) : OutRow :=
  { companyName := company
    emails := chars "ERROR"
    street := none
    city := none
    state := none
    zip_code := none }

/-- The bulk loop of `upload_excel` (lines 104-131 of `src/main.py`).
The three transforms are total in this model, so an unexpected runtime
failure is represented by a per-row oracle flag; a failure is modelled as
striking inside the transform calls, i.e. after the row's company cell
has been coerced to text, which is what the except branch's use of the
`company` variable then refers to. -/
def transform_batch (rows : List (RawRow × Bool)) : List OutRow :=
  rows.map (fun rf => if rf.2 then errorRow rf.1.company else processRow rf.1)

/-! Helper lemmas about whitespace splitting, joining and stripping. -/

theorem pySplitAux_good (s : List Char) : ∀ cur, (∀ c ∈ cur, pyIsSpace c = false) →
    ∀ w ∈ pySplitAux cur s, w ≠ [] ∧ ∀ c ∈ w, pyIsSpace c = false := by
  induction s with
  | nil =>
    intro cur hcur w hw
    cases cur with
    | nil => simp [pySplitAux] at hw
    | cons c cs =>
      simp [pySplitAux] at hw
      subst hw
      refine ⟨by simp, ?_⟩
      intro c' hc'
      exact hcur c' (by simp at hc' ⊢; tauto)
  | cons c rest ih =>
    intro cur hcur w hw
    by_cases hc : pyIsSpace c = true
    · cases cur with
      | nil =>
        simp [pySplitAux, hc] at hw
        exact ih [] (by simp) w hw
      | cons a cs =>
        simp [pySplitAux, hc] at hw
        rcases hw with hw | hw
        · subst hw
          refine ⟨by simp, ?_⟩
          intro c' hc'
          exact hcur c' (by simp at hc' ⊢; tauto)
        · exact ih [] (by simp) w hw
    · simp [pySplitAux, hc] at hw
      refine ih (c :: cur) ?_ w hw
      intro c' hc'
      rcases List.mem_cons.1 hc' with h | h
      · subst h; simpa using hc
      · exact hcur c' h

theorem pySplit_good (s : List Char) :
    ∀ w ∈ pySplit s, w ≠ [] ∧ ∀ c ∈ w, pyIsSpace c = false :=
  pySplitAux_good s [] (by simp)

theorem pySplitAux_subset (s : List Char) : ∀ cur w, w ∈ pySplitAux cur s →
    ∀ c ∈ w, c ∈ cur ∨ c ∈ s := by
  induction s with
  | nil =>
    intro cur w hw c hc
    cases cur with
    | nil => simp [pySplitAux] at hw
    | cons a cs =>
      simp [pySplitAux] at hw
      subst hw
      exact Or.inl (by simp at hc ⊢; tauto)
  | cons b rest ih =>
    intro cur w hw c hc
    by_cases hb : pyIsSpace b = true
    · cases cur with
      | nil =>
        simp [pySplitAux, hb] at hw
        rcases ih [] w hw c hc with h | h
        · simp at h
        · exact Or.inr (by simp [h])
      | cons a cs =>
        simp [pySplitAux, hb] at hw
        rcases hw with hw | hw
        · subst hw
          exact Or.inl (by simp at hc ⊢; tauto)
        · rcases ih [] w hw c hc with h | h
          · simp at h
          · exact Or.inr (by simp [h])
    · simp [pySplitAux, hb] at hw
      rcases ih (b :: cur) w hw c hc with h | h
      · rcases List.mem_cons.1 h with h' | h'
        · exact Or.inr (by simp [h'])
        · exact Or.inl h'
      · exact Or.inr (by simp [h])

theorem pySplit_subset (s : List Char) : ∀ w ∈ pySplit s, ∀ c ∈ w, c ∈ s := by
  intro w hw c hc
  rcases pySplitAux_subset s [] w hw c hc with h | h
  · simp at h
  · exact h

theorem pySplitAux_append (w : List Char) : ∀ s cur, (∀ c ∈ w, pyIsSpace c = false) →
    pySplitAux cur (w ++ s) = pySplitAux (w.reverse ++ cur) s := by
  induction w with
  | nil => intro s cur _; simp
  | cons c w ih =>
    intro s cur hw
    have hc : pyIsSpace c = false := hw c (by simp)
    show pySplitAux cur (c :: (w ++ s)) = _
    rw [show pySplitAux cur (c :: (w ++ s)) = pySplitAux (c :: cur) (w ++ s) by
      simp [pySplitAux, hc]]
    rw [ih s (c :: cur) (fun c' h => hw c' (by simp [h]))]
    congr 1
    simp

theorem pySplit_single (t : List Char) (ht : t ≠ []) (hns : ∀ c ∈ t, pyIsSpace c = false) :
    pySplit t = [t] := by
  have h := pySplitAux_append t [] [] hns
  simp only [List.append_nil] at h
  unfold pySplit
  rw [h]
  have : t.reverse.isEmpty = false := by
    cases htr : t.reverse with
    | nil => exact absurd (by simpa using htr) ht
    | cons a b => simp [htr]
  simp [pySplitAux, this]

theorem pySplit_joinSpace (ts : List (List Char)) :
    (∀ t ∈ ts, t ≠ [] ∧ ∀ c ∈ t, pyIsSpace c = false) →
    pySplit (joinSpace ts) = ts := by
  induction ts with
  | nil => intro _; rfl
  | cons t ts ih =>
    intro h
    obtain ⟨ht, hns⟩ := h t (by simp)
    cases ts with
    | nil => exact pySplit_single t ht hns
    | cons t2 ts2 =>
      show pySplit (t ++ ' ' :: joinSpace (t2 :: ts2)) = _
      unfold pySplit
      rw [pySplitAux_append t _ [] hns]
      have hrev : (t.reverse ++ []).isEmpty = false := by
        cases htr : t.reverse with
        | nil => exact absurd (by simpa using htr) ht
        | cons a b => simp [htr]
      rw [show pySplitAux (t.reverse ++ []) (' ' :: joinSpace (t2 :: ts2)) =
          (t.reverse ++ []).reverse :: pySplitAux [] (joinSpace (t2 :: ts2)) by
        simp [pySplitAux, hrev, pyIsSpace, ht]]
      have := ih (fun t' h' => h t' (by simp [h']))
      unfold pySplit at this
      rw [this]
      simp

theorem joinSpace_cons (t : List Char) (ts : List (List Char)) :
    ∃ u, joinSpace (t :: ts) = t ++ u := by
  cases ts with
  | nil => exact ⟨[], by simp [joinSpace]⟩
  | cons t2 ts2 => exact ⟨' ' :: joinSpace (t2 :: ts2), rfl⟩

theorem joinSpace_reverse_head (ts : List (List Char)) :
    (∀ t ∈ ts, t ≠ [] ∧ ∀ c ∈ t, pyIsSpace c = false) → ts ≠ [] →
    ∃ c r, (joinSpace ts).reverse = c :: r ∧ pyIsSpace c = false := by
  induction ts with
  | nil => intro _ h; exact absurd rfl h
  | cons t ts ih =>
    intro h _
    obtain ⟨ht, hns⟩ := h t (by simp)
    cases ts with
    | nil =>
      cases hrev : t.reverse with
      | nil => exact absurd (by simpa using hrev) ht
      | cons c r =>
        refine ⟨c, r, by simpa [joinSpace] using hrev, ?_⟩
        have : c ∈ t := by
          have : c ∈ t.reverse := by simp [hrev]
          simpa using this
        exact hns c this
    | cons t2 ts2 =>
      obtain ⟨c, r, hcr, hc⟩ := ih (fun t' h' => h t' (by simp [h'])) (by simp)
      refine ⟨c, r ++ ' ' :: t.reverse, ?_, hc⟩
      show (t ++ ' ' :: joinSpace (t2 :: ts2)).reverse = _
      rw [List.reverse_append]
      simp [hcr]

theorem pyStrip_nil : pyStrip [] = [] := rfl

theorem pyStrip_joinSpace (ts : List (List Char))
    (h : ∀ t ∈ ts, t ≠ [] ∧ ∀ c ∈ t, pyIsSpace c = false) :
    pyStrip (joinSpace ts) = joinSpace ts := by
  cases ts with
  | nil => rfl
  | cons t ts2 =>
    obtain ⟨ht, hns⟩ := h t (by simp)
    obtain ⟨u, hu⟩ := joinSpace_cons t ts2
    cases t with
    | nil => exact absurd rfl ht
    | cons c t' =>
      have hc : pyIsSpace c = false := hns c (by simp)
      have h1 : (joinSpace ((c :: t') :: ts2)).dropWhile pyIsSpace =
          joinSpace ((c :: t') :: ts2) := by
        rw [hu]
        simp [List.dropWhile_cons, hc]
      obtain ⟨c2, r2, hcr, hc2⟩ := joinSpace_reverse_head ((c :: t') :: ts2) h (by simp)
      have h2 : List.dropWhile pyIsSpace (c2 :: r2) = c2 :: r2 := by
        simp [List.dropWhile_cons, hc2]
      unfold pyStrip
      rw [h1, hcr, h2, ← hcr, List.reverse_reverse]

theorem mem_joinSpace (ts : List (List Char)) (c : Char) :
    c ∈ joinSpace ts → c = ' ' ∨ ∃ t ∈ ts, c ∈ t := by
  induction ts with
  | nil => simp [joinSpace]
  | cons t ts ih =>
    intro hc
    cases ts with
    | nil => exact Or.inr ⟨t, by simp, by simpa [joinSpace] using hc⟩
    | cons t2 ts2 =>
      rcases List.mem_append.1 (show c ∈ t ++ ' ' :: joinSpace (t2 :: ts2) from hc) with h | h
      · exact Or.inr ⟨t, by simp, h⟩
      · rcases List.mem_cons.1 h with h' | h'
        · exact Or.inl h'
        · rcases ih h' with h'' | ⟨t', ht', hct'⟩
          · exact Or.inl h''
          · exact Or.inr ⟨t', List.mem_cons_of_mem t ht', hct'⟩

theorem mem_joinSpace_isInfix (t : List Char) (ts : List (List Char)) (h : t ∈ ts) :
    List.IsInfix t (joinSpace ts) := by
  induction ts with
  | nil => simp at h
  | cons t2 ts2 ih =>
    cases ts2 with
    | nil =>
      rcases List.mem_cons.1 h with h' | h'
      · subst h'; exact List.infix_refl t
      · simp at h'
    | cons t3 ts3 =>
      rcases List.mem_cons.1 h with h' | h'
      · subst h'
        exact ⟨[], ' ' :: joinSpace (t3 :: ts3), by simp [joinSpace]⟩
      · obtain ⟨a, b, hab⟩ := ih h'
        exact ⟨t2 ++ ' ' :: a, b, by rw [show joinSpace (t2 :: t3 :: ts3) =
          t2 ++ ' ' :: joinSpace (t3 :: ts3) from rfl, ← hab]; simp⟩

/-! Helper lemmas: no two adjacent spaces in a space-join of clean tokens. -/

theorem chain'_of_nonspace (l : List Char) (h : ∀ c ∈ l, pyIsSpace c = false) :
    l.Chain' (fun a b => ¬(a = ' ' ∧ b = ' ')) := by
  induction l with
  | nil => simp
  | cons c l ih =>
    cases l with
    | nil => simp
    | cons c2 l2 =>
      rw [List.chain'_cons]
      refine ⟨?_, ih (fun c' h' => h c' (List.mem_cons_of_mem c h'))⟩
      intro ⟨hc, _⟩
      have := h c (by simp)
      rw [hc] at this
      simp [pyIsSpace] at this

theorem chain'_joinSpace (ts : List (List Char))
    (h : ∀ t ∈ ts, t ≠ [] ∧ ∀ c ∈ t, pyIsSpace c = false) :
    (joinSpace ts).Chain' (fun a b => ¬(a = ' ' ∧ b = ' ')) := by
  induction ts with
  | nil => simp [joinSpace]
  | cons t ts ih =>
    obtain ⟨ht, hns⟩ := h t (by simp)
    cases ts with
    | nil => exact chain'_of_nonspace t hns
    | cons t2 ts2 =>
      show List.Chain' _ (t ++ ' ' :: joinSpace (t2 :: ts2))
      rw [List.chain'_append]
      refine ⟨chain'_of_nonspace t hns, ?_, ?_⟩
      · rw [List.chain'_cons']
        refine ⟨?_, ih (fun t' h' => h t' (List.mem_cons_of_mem t h'))⟩
        intro y hy
        obtain ⟨ht2, hns2⟩ := h t2 (by simp)
        obtain ⟨u, hu⟩ := joinSpace_cons t2 ts2
        cases t2 with
        | nil => exact absurd rfl ht2
        | cons c2 t2' =>
          rw [hu] at hy
          simp at hy
          intro ⟨_, hy'⟩
          have hc2 := hns2 c2 (by simp)
          rw [hy.trans hy'] at hc2
          simp [pyIsSpace] at hc2
      · intro x hx y hy
        have hxt : x ∈ t := List.mem_of_mem_getLast? hx
        intro ⟨hx', _⟩
        have := hns x hxt
        rw [hx'] at this
        simp [pyIsSpace] at this

theorem chain'_no_double_space (l : List Char)
    (h : l.Chain' (fun a b => ¬(a = ' ' ∧ b = ' '))) :
    ¬ List.IsInfix [' ', ' '] l := by
  intro ⟨a, b, hab⟩
  rw [← hab] at h
  rw [List.append_assoc] at h
  have h2 := (List.chain'_append.1 h).2.1
  rw [show ([' ', ' '] : List Char) ++ b = ' ' :: ' ' :: b from rfl, List.chain'_cons] at h2
  exact h2.1 ⟨rfl, rfl⟩

/-! Helper lemma: case characterization of parse_address. -/

theorem parse_address_eq (address : List Char) :
    ((splitComma address).length < 3 ∧ parse_address address = ⟨none, none, none, none⟩) ∨
    (∃ p0 p1 p2 rest, splitComma address = p0 :: p1 :: p2 :: rest ∧
      parse_address address = ⟨some (pyStrip p0), some (pyStrip p1),
        (pySplit (pyStrip p2)).head?, (pySplit (pyStrip p2))[1]?⟩) := by
  unfold parse_address
  rcases hp : splitComma address with _ | ⟨p0, _ | ⟨p1, _ | ⟨p2, rest⟩⟩⟩
  · exact Or.inl ⟨by simp, rfl⟩
  · exact Or.inl ⟨by simp, rfl⟩
  · exact Or.inl ⟨by simp, rfl⟩
  · refine Or.inr ⟨p0, p1, p2, rest, rfl, ?_⟩
    show (⟨some (pyStrip p0), some (pyStrip p1),
      (if h : 1 ≤ (pySplit (pyStrip p2)).length
       then some ((pySplit (pyStrip p2)).get ⟨0, h⟩) else none),
      (if h : 2 ≤ (pySplit (pyStrip p2)).length
       then some ((pySplit (pyStrip p2)).get ⟨1, h⟩) else none)⟩ : ParsedAddress) = _
    simp only [ParsedAddress.mk.injEq]
    refine ⟨trivial, trivial, ?_, ?_⟩
    · cases hsz : pySplit (pyStrip p2) with
      | nil => rw [dif_neg (by simp)]; rfl
      | cons a tl => rw [dif_pos (by simp)]; rfl
    · cases hsz : pySplit (pyStrip p2) with
      | nil => rw [dif_neg (by simp)]; rfl
      | cons a tl =>
        cases tl with
        | nil => rw [dif_neg (by simp)]; rfl
        | cons b tl2 => rw [dif_pos (by simp)]; simp

/-! Helper lemmas about the email matcher and the findall scan. -/

theorem matchAt_spec {s m r : List Char} (h : matchAt s = some (m, r)) :
    s = m ++ r ∧ m ≠ [] ∧ EmailShape m := by
  simp only [matchAt] at h
  split at h
  · simp at h
  · split at h
    · simp at h
    · split at h
      · simp at h
      · rename_i hc1 hc2 hc3
        push_neg at hc1 hc2
        obtain ⟨hl, hat⟩ := hc1
        obtain ⟨hd, hdot⟩ := hc2
        have h2 : (s.takeWhile isLocalChar ++ '@' ::
            ((s.dropWhile isLocalChar).tail.takeWhile isDomainChar ++ '.' ::
              ((s.dropWhile isLocalChar).tail.dropWhile isDomainChar).tail.takeWhile isTldChar),
            ((s.dropWhile isLocalChar).tail.dropWhile isDomainChar).tail.dropWhile isTldChar)
            = (m, r) := Option.some.inj h
        have hm : s.takeWhile isLocalChar ++ '@' ::
            ((s.dropWhile isLocalChar).tail.takeWhile isDomainChar ++ '.' ::
              ((s.dropWhile isLocalChar).tail.dropWhile isDomainChar).tail.takeWhile isTldChar) = m :=
          congrArg Prod.fst h2
        have hr : ((s.dropWhile isLocalChar).tail.dropWhile isDomainChar).tail.dropWhile isTldChar = r :=
          congrArg Prod.snd h2
        cases hr1 : s.dropWhile isLocalChar with
        | nil => rw [hr1] at hat; simp at hat
        | cons c r2 =>
          rw [hr1] at hat
          simp at hat
          subst hat
          rw [hr1] at hm hr hdot hd hc3
          simp only [List.tail_cons] at hm hr hdot hd hc3
          cases hr3 : r2.dropWhile isDomainChar with
          | nil => rw [hr3] at hdot; simp at hdot
          | cons c3 r4 =>
            rw [hr3] at hdot
            simp at hdot
            subst hdot
            rw [hr3] at hm hr hc3
            simp only [List.tail_cons] at hm hr hc3
            refine ⟨?_, ?_, ?_⟩
            · have hs1 : s = s.takeWhile isLocalChar ++ '@' :: r2 := by
                rw [← hr1, List.takeWhile_append_dropWhile]
              have hs2 : r2 = r2.takeWhile isDomainChar ++ '.' :: r4 := by
                rw [← hr3, List.takeWhile_append_dropWhile]
              have hs3 : r4 = r4.takeWhile isTldChar ++ r4.dropWhile isTldChar := by
                rw [List.takeWhile_append_dropWhile]
              rw [hs1, hs2, hs3, ← hm, ← hr]
              simp
            · rw [← hm]
              cases hc : s.takeWhile isLocalChar with
              | nil => exact absurd hc hl
              | cons a l' => simp
            · refine ⟨s.takeWhile isLocalChar, r2.takeWhile isDomainChar,
                r4.takeWhile isTldChar, hl, hd, hc3, ?_, ?_, ?_, hm.symm⟩
              · intro c' hc'; exact List.mem_takeWhile_imp hc'
              · intro c' hc'; exact List.mem_takeWhile_imp hc'
              · intro c' hc'; exact List.mem_takeWhile_imp hc'

theorem matchAt_nil : matchAt [] = none := rfl

theorem matchAt_some_length {s m r : List Char} (h : matchAt s = some (m, r)) :
    r.length < s.length ∧ s.length = m.length + r.length ∧ 0 < m.length := by
  obtain ⟨hs, hm, _⟩ := matchAt_spec h
  have hlen : s.length = m.length + r.length := by rw [hs]; simp
  have hpos : 0 < m.length := List.length_pos.mpr hm
  exact ⟨by omega, hlen, hpos⟩

theorem findallPosFuel_irrel : ∀ fuel fuel' i (s : List Char),
    s.length ≤ fuel → s.length ≤ fuel' →
    findallPosFuel fuel i s = findallPosFuel fuel' i s := by
  intro fuel
  induction fuel with
  | zero =>
    intro fuel' i s h h'
    have : s = [] := by cases s with | nil => rfl | cons a l => simp at h
    subst this
    cases fuel' <;> rfl
  | succ fuel ih =>
    intro fuel' i s h h'
    cases s with
    | nil => cases fuel' <;> rfl
    | cons c rest =>
      cases fuel' with
      | zero => simp at h'
      | succ fuel2 =>
        simp only [findallPosFuel]
        cases hm : matchAt (c :: rest) with
        | none =>
          exact ih fuel2 (i + 1) rest (by simp at h; omega) (by simp at h'; omega)
        | some pr =>
          obtain ⟨m, r⟩ := pr
          obtain ⟨hrl, hlen, hpos⟩ := matchAt_some_length hm
          show (i, i + m.length, m) :: findallPosFuel fuel (i + m.length) r =
               (i, i + m.length, m) :: findallPosFuel fuel2 (i + m.length) r
          rw [ih fuel2 (i + m.length) r (by simp at h hrl; omega) (by simp at h' hrl; omega)]

theorem findallPos_cons_match {c : Char} {rest m r : List Char} (i : Nat)
    (h : matchAt (c :: rest) = some (m, r)) :
    findallPos i (c :: rest) = (i, i + m.length, m) :: findallPos (i + m.length) r := by
  obtain ⟨hrl, hlen, hpos⟩ := matchAt_some_length h
  unfold findallPos
  rw [show (c :: rest).length = rest.length + 1 from rfl]
  simp only [findallPosFuel, h]
  rw [findallPosFuel_irrel rest.length r.length (i + m.length) r (by simp at hrl; omega) le_rfl]

theorem findallPos_cons_none {c : Char} {rest : List Char} (i : Nat)
    (h : matchAt (c :: rest) = none) :
    findallPos i (c :: rest) = findallPos (i + 1) rest := by
  unfold findallPos
  rw [show (c :: rest).length = rest.length + 1 from rfl]
  simp only [findallPosFuel, h]

theorem drop_append_ge (a : List Char) : ∀ (b : List Char) (n : Nat), a.length ≤ n →
    (a ++ b).drop n = b.drop (n - a.length) := by
  induction a with
  | nil => intro b n _; simp
  | cons x a ih =>
    intro b n h
    cases n with
    | zero => simp at h
    | succ n2 =>
      rw [show (x :: a) ++ b = x :: (a ++ b) from rfl, List.drop_succ_cons,
        ih b n2 (by simp at h; omega)]
      congr 1
      simp

theorem findallPosFuel_mem_spec : ∀ fuel i (s : List Char), s.length ≤ fuel →
    ∀ e ∈ findallPosFuel fuel i s,
      i ≤ e.1 ∧ e.2.1 = e.1 + e.2.2.length ∧
      matchAt (s.drop (e.1 - i)) = some (e.2.2, s.drop (e.2.1 - i)) := by
  intro fuel
  induction fuel with
  | zero =>
    intro i s h e he
    have : s = [] := by cases s with | nil => rfl | cons a l => simp at h
    subst this
    simp [findallPosFuel] at he
  | succ fuel ih =>
    intro i s h e he
    cases s with
    | nil => simp [findallPosFuel] at he
    | cons c rest =>
      simp only [findallPosFuel] at he
      cases hm : matchAt (c :: rest) with
      | none =>
        rw [hm] at he
        obtain ⟨h1, h2, h3⟩ := ih (i + 1) rest (by simp at h; omega) e he
        refine ⟨by omega, h2, ?_⟩
        have hd1 : (c :: rest).drop (e.1 - i) = rest.drop (e.1 - (i + 1)) := by
          rw [show e.1 - i = (e.1 - (i + 1)) + 1 by omega, List.drop_succ_cons]
        have hd2 : (c :: rest).drop (e.2.1 - i) = rest.drop (e.2.1 - (i + 1)) := by
          have hpos : 0 < e.2.2.length := by
            rcases hsm : matchAt (rest.drop (e.1 - (i + 1))) with _ | pr
            · rw [hsm] at h3; simp at h3
            · obtain ⟨m2, r2⟩ := pr
              rw [hsm] at h3
              have := congrArg Prod.fst (Option.some.inj h3)
              simp at this
              subst this
              exact (matchAt_some_length hsm).2.2
          rw [show e.2.1 - i = (e.2.1 - (i + 1)) + 1 by omega, List.drop_succ_cons]
        rw [hd1, hd2]
        exact h3
      | some pr =>
        obtain ⟨m, r⟩ := pr
        obtain ⟨hrl, hlen, hpos⟩ := matchAt_some_length hm
        rw [hm] at he
        rcases List.mem_cons.1 he with he1 | he2
        · subst he1
          refine ⟨le_rfl, by simp, ?_⟩
          simp only [Nat.sub_self, List.drop_zero]
          rw [show i + m.length - i = m.length by omega]
          rw [hm]
          congr 1
          obtain ⟨hs, _, _⟩ := matchAt_spec hm
          rw [hs, List.drop_left]
        · obtain ⟨h1, h2, h3⟩ := ih (i + m.length) r (by simp at h hrl; omega) e he2
          obtain ⟨hs, _, _⟩ := matchAt_spec hm
          refine ⟨by omega, h2, ?_⟩
          have hd1 : (c :: rest).drop (e.1 - i) = r.drop (e.1 - (i + m.length)) := by
            rw [show (c : Char) :: rest = m ++ r from hs,
              drop_append_ge m r (e.1 - i) (by omega)]
            congr 1
            omega
          have hd2 : (c :: rest).drop (e.2.1 - i) = r.drop (e.2.1 - (i + m.length)) := by
            rw [show (c : Char) :: rest = m ++ r from hs,
              drop_append_ge m r (e.2.1 - i) (by omega)]
            congr 1
            omega
          rw [hd1, hd2]
          exact h3

theorem findallPosFuel_nonoverlap : ∀ fuel i (s : List Char), s.length ≤ fuel →
    Nonoverlapping (findallPosFuel fuel i s) := by
  intro fuel
  induction fuel with
  | zero =>
    intro i s h
    have : s = [] := by cases s with | nil => rfl | cons a l => simp at h
    subst this
    simp [findallPosFuel, Nonoverlapping]
  | succ fuel ih =>
    intro i s h
    cases s with
    | nil => simp [findallPosFuel, Nonoverlapping]
    | cons c rest =>
      simp only [findallPosFuel]
      cases hm : matchAt (c :: rest) with
      | none => exact ih (i + 1) rest (by simp at h; omega)
      | some pr =>
        obtain ⟨m, r⟩ := pr
        obtain ⟨hrl, hlen, hpos⟩ := matchAt_some_length hm
        have hrle : r.length ≤ fuel := by simp at h hrl; omega
        have htl := ih (i + m.length) r hrle
        show Nonoverlapping ((i, i + m.length, m) :: findallPosFuel fuel (i + m.length) r)
        cases htl2 : findallPosFuel fuel (i + m.length) r with
        | nil => simp [Nonoverlapping, htl2]; omega
        | cons e2 t2 =>
          show i < i + m.length ∧ i + m.length ≤ e2.1 ∧ Nonoverlapping (e2 :: t2)
          refine ⟨by omega, ?_, htl2 ▸ htl⟩
          have := (findallPosFuel_mem_spec fuel (i + m.length) r hrle e2 (by rw [htl2]; simp)).1
          omega

theorem findallPosFuel_complete : ∀ fuel i (s : List Char), s.length ≤ fuel →
    ∀ j, (matchAt (s.drop j)).isSome = true →
    ∃ e ∈ findallPosFuel fuel i s, e.1 ≤ i + j ∧ i + j < e.2.1 := by
  intro fuel
  induction fuel with
  | zero =>
    intro i s h j hj
    have : s = [] := by cases s with | nil => rfl | cons a l => simp at h
    subst this
    rw [List.drop_nil] at hj
    rw [matchAt_nil] at hj
    simp at hj
  | succ fuel ih =>
    intro i s h j hj
    cases s with
    | nil =>
      rw [List.drop_nil, matchAt_nil] at hj
      simp at hj
    | cons c rest =>
      cases hm : matchAt (c :: rest) with
      | some pr =>
        obtain ⟨m, r⟩ := pr
        obtain ⟨hrl, hlen, hpos⟩ := matchAt_some_length hm
        obtain ⟨hs, _, _⟩ := matchAt_spec hm
        by_cases hj2 : j < m.length
        · refine ⟨(i, i + m.length, m), ?_, by omega, by simp; omega⟩
          simp only [findallPosFuel, hm]
          simp
        · have hdj : (c :: rest).drop j = r.drop (j - m.length) := by
            rw [show (c : Char) :: rest = m ++ r from hs,
              drop_append_ge m r j (by omega)]
          rw [hdj] at hj
          obtain ⟨e, he, h1, h2⟩ := ih (i + m.length) r (by simp at h hrl; omega) (j - m.length) hj
          refine ⟨e, ?_, by omega, by omega⟩
          simp only [findallPosFuel, hm]
          exact List.mem_cons_of_mem _ he
      | none =>
        cases j with
        | zero =>
          rw [List.drop_zero] at hj
          rw [hm] at hj
          simp at hj
        | succ j2 =>
          rw [List.drop_succ_cons] at hj
          obtain ⟨e, he, h1, h2⟩ := ih (i + 1) rest (by simp at h; omega) j2 hj
          refine ⟨e, ?_, by omega, by omega⟩
          simp only [findallPosFuel, hm]
          exact he

theorem list_getElem?_map {α β : Type} (f : α → β) (l : List α) (k : Nat) :
    (l.map f)[k]? = (l[k]?).map f := by
  simp [List.getElem?_map]

theorem findallPos_mem_spec (s : List Char) (e : Nat × Nat × List Char)
    (he : e ∈ findallPos 0 s) :
    e.2.1 = e.1 + e.2.2.length ∧
    matchAt (s.drop e.1) = some (e.2.2, s.drop e.2.1) := by
  obtain ⟨_, h2, h3⟩ := findallPosFuel_mem_spec s.length 0 s le_rfl e he
  simpa using ⟨h2, h3⟩

theorem findallPos_nonoverlap (s : List Char) : Nonoverlapping (findallPos 0 s) :=
  findallPosFuel_nonoverlap s.length 0 s le_rfl

theorem findallPos_complete (s : List Char) (j : Nat)
    (hj : (matchAt (s.drop j)).isSome = true) :
    ∃ e ∈ findallPos 0 s, e.1 ≤ j ∧ j < e.2.1 := by
  obtain ⟨e, he, h1, h2⟩ := findallPosFuel_complete s.length 0 s le_rfl j hj
  exact ⟨e, he, by omega, by omega⟩

theorem splitComma_cons_inj {address p0 p1 p2 q0 q1 q2 : List Char}
    {rest qrest : List (List Char)}
    (h1 : splitComma address = p0 :: p1 :: p2 :: rest)
    (h2 : splitComma address = q0 :: q1 :: q2 :: qrest) :
    p0 = q0 ∧ p1 = q1 ∧ p2 = q2 ∧ rest = qrest := by
  rw [h1] at h2
  simp only [List.cons.injEq] at h2
  exact ⟨h2.1, h2.2.1, h2.2.2.1, h2.2.2.2⟩

/-- Claim C2: the address parser splits on commas; fewer than 3 parts gives
all four fields absent; otherwise street and city are the first two parts
trimmed, state and zip are the first and second whitespace tokens of the
trimmed third part when they exist, and parts beyond the third are
ignored. -/
theorem claim_C2_parse_address_algorithm (address : List Char) :
    ((splitComma address).length < 3 → parse_address address = ⟨none, none, none, none⟩) ∧
    (∀ p0 p1 p2 rest, splitComma address = p0 :: p1 :: p2 :: rest →
      parse_address address = ⟨some (pyStrip p0), some (pyStrip p1),
        (pySplit (pyStrip p2)).head?, (pySplit (pyStrip p2))[1]?⟩) := by
  rcases parse_address_eq address with ⟨h3, heq⟩ | ⟨p0, p1, p2, rest, hp, heq⟩
  · refine ⟨fun _ => heq, ?_⟩
    intro q0 q1 q2 qrest hq
    rw [hq] at h3
    simp at h3
    omega
  · refine ⟨?_, ?_⟩
    · intro hlt
      rw [hp] at hlt
      simp at hlt
      omega
    · intro q0 q1 q2 qrest hq
      obtain ⟨e0, e1, e2, _⟩ := splitComma_cons_inj hp hq
      subst e0
      subst e1
      subst e2
      exact heq

/-- Claim C2 witness: the spec example for a third part with one token. -/
theorem claim_C2_witness :
    parse_address (chars "1 A St, Town, IL") =
      ⟨some (chars "1 A St"), some (chars "Town"), some (chars "IL"), none⟩ := by
  have h := (claim_C2_parse_address_algorithm (chars "1 A St, Town, IL")).2
    (chars "1 A St") (chars " Town") (chars " IL") [] (by decide)
  exact h.trans (by decide)

/-- Claim C4 counterexample: on the spec example input `"1 A St, Town, IL"`
street, city and state are present while zip_code is absent, so the four
address fields are not simultaneously present or simultaneously absent. -/
theorem claim_C4_counterexample :
    (parse_address (chars "1 A St, Town, IL")).street.isSome = true ∧
    (parse_address (chars "1 A St, Town, IL")).city.isSome = true ∧
    (parse_address (chars "1 A St, Town, IL")).state.isSome = true ∧
    (parse_address (chars "1 A St, Town, IL")).zip_code.isSome = false := by
  decide

/-- Claim C4 amended: street and city are simultaneously present or
simultaneously absent, state can only be present when they are, and
zip_code can only be present when state is. -/
theorem claim_C4_amended_presence (address : List Char) :
    ((parse_address address).street.isSome = true ↔
      (parse_address address).city.isSome = true) ∧
    ((parse_address address).state.isSome = true →
      (parse_address address).street.isSome = true) ∧
    ((parse_address address).zip_code.isSome = true →
      (parse_address address).state.isSome = true) := by
  rcases parse_address_eq address with ⟨h3, heq⟩ | ⟨p0, p1, p2, rest, hp, heq⟩ <;> rw [heq]
  · simp
  · refine ⟨by simp, fun _ => by simp, ?_⟩
    intro hz
    cases hsz : pySplit (pyStrip p2) with
    | nil => rw [hsz] at hz; simp at hz
    | cons a tl => simp

/-- Claim C4 amended witness. -/
theorem claim_C4_amended_witness :
    (parse_address (chars "1 A St, Town, IL")).street.isSome = true :=
  (claim_C4_amended_presence (chars "1 A St, Town, IL")).2.1 (by decide)

/-- Claim C6: an address field is absent only for insufficient comma parts
or insufficient whitespace tokens; a matched-but-empty field (empty first
comma part with at least 3 parts) is present as the empty string. -/
theorem claim_C6_absence_only_structural (address : List Char) :
    ((splitComma address).length < 3 → parse_address address = ⟨none, none, none, none⟩) ∧
    (∀ p0 p1 p2 rest, splitComma address = p0 :: p1 :: p2 :: rest →
      (parse_address address).street = some (pyStrip p0) ∧
      (parse_address address).city = some (pyStrip p1) ∧
      ((parse_address address).state = none ↔ pySplit (pyStrip p2) = []) ∧
      ((parse_address address).zip_code = none ↔ (pySplit (pyStrip p2)).length < 2)) ∧
    (∀ p0 p1 p2 rest, splitComma address = p0 :: p1 :: p2 :: rest → pyStrip p0 = [] →
      (parse_address address).street = some []) := by
  rcases parse_address_eq address with ⟨h3, heq⟩ | ⟨p0, p1, p2, rest, hp, heq⟩
  · refine ⟨fun _ => heq, ?_, ?_⟩
    · intro q0 q1 q2 qrest hq
      rw [hq] at h3
      simp at h3
      omega
    · intro q0 q1 q2 qrest hq _
      rw [hq] at h3
      simp at h3
      omega
  · refine ⟨?_, ?_, ?_⟩
    · intro hlt
      rw [hp] at hlt
      simp at hlt
      omega
    · intro q0 q1 q2 qrest hq
      obtain ⟨e0, e1, e2, _⟩ := splitComma_cons_inj hp hq
      subst e0
      subst e1
      subst e2
      rw [heq]
      refine ⟨rfl, rfl, ?_, ?_⟩
      · simp [List.head?_eq_none_iff]
      · cases hsz : pySplit (pyStrip p2) with
        | nil => simp
        | cons a tl =>
          cases tl with
          | nil => simp
          | cons b tl2 => simp
    · intro q0 q1 q2 qrest hq h0
      obtain ⟨e0, e1, e2, _⟩ := splitComma_cons_inj hp hq
      subst e0
      subst e1
      subst e2
      rw [heq]
      simp [h0]

/-- Claim C6 witness: `",,"` has three comma parts, all empty, and street
is present as the empty string. -/
theorem claim_C6_witness :
    (parse_address (chars ",,")).street = some [] :=
  (claim_C6_absence_only_structural (chars ",,")).2.2 [] [] [] [] (by decide) (by decide)

/-- Claim C9: field presence is monotone: zip_code present implies state
present, and state present implies street and city present (at least 3
comma parts existed). -/
theorem claim_C9_presence_monotone (address : List Char) :
    ((parse_address address).zip_code.isSome = true →
      (parse_address address).state.isSome = true) ∧
    ((parse_address address).state.isSome = true →
      (parse_address address).street.isSome = true ∧
      (parse_address address).city.isSome = true ∧
      3 ≤ (splitComma address).length) := by
  rcases parse_address_eq address with ⟨h3, heq⟩ | ⟨p0, p1, p2, rest, hp, heq⟩ <;> rw [heq]
  · simp
  · refine ⟨?_, ?_⟩
    · intro hz
      cases hsz : pySplit (pyStrip p2) with
      | nil => rw [hsz] at hz; simp at hz
      | cons a tl => simp
    · intro _
      refine ⟨by simp, by simp, by rw [hp]; simp⟩

/-- Claim C9 witness. -/
theorem claim_C9_witness :
    (parse_address (chars "1 A St, Town, IL 62704")).state.isSome = true :=
  (claim_C9_presence_monotone (chars "1 A St, Town, IL 62704")).1 (by decide)

theorem clean_company_name_eq_join (name : List Char) :
    clean_company_name name = joinSpace ((pySplit (depunct name)).filter
      (fun w => !(decide (pyUpper w ∈ suffixes)))) := by
  unfold clean_company_name
  exact pyStrip_joinSpace _ (fun t ht => pySplit_good _ t (List.mem_filter.1 ht).1)

/-- Claim C3: the name cleaner removes dots and commas, splits on
whitespace, drops exactly the tokens whose uppercase form is in the suffix
set, and rejoins the surviving tokens in order with single spaces and no
leading or trailing whitespace; empty input yields empty output. -/
theorem claim_C3_clean_company_name_algorithm (name : List Char) :
    clean_company_name name =
      joinSpace ((pySplit (depunct name)).filter
        (fun w => !(decide (pyUpper w ∈ suffixes)))) ∧
    List.Sublist ((pySplit (depunct name)).filter
        (fun w => !(decide (pyUpper w ∈ suffixes)))) (pySplit (depunct name)) ∧
    (∀ w ∈ pySplit (depunct name),
      (w ∈ (pySplit (depunct name)).filter (fun w => !(decide (pyUpper w ∈ suffixes))) ↔
        ¬ pyUpper w ∈ suffixes)) ∧
    clean_company_name [] = [] := by
  refine ⟨clean_company_name_eq_join name, List.filter_sublist _, ?_, rfl⟩
  intro w hw
  rw [List.mem_filter]
  simp [hw]

/-- Claim C3 witness: in the spec example `"Acme, Inc."` the token `"Acme"`
is kept because its uppercase form is not a suffix. -/
theorem claim_C3_witness :
    (chars "Acme" ∈ (pySplit (depunct (chars "Acme, Inc."))).filter
        (fun w => !(decide (pyUpper w ∈ suffixes))) ↔
      ¬ pyUpper (chars "Acme") ∈ suffixes) :=
  (claim_C3_clean_company_name_algorithm (chars "Acme, Inc.")).2.2.1 (chars "Acme") (by decide)

/-- Claim C7: suffix matching is whole-token: any whitespace token of the
de-punctuated name whose uppercase form equals no member of the suffix set
survives the filter and still occurs in the cleaner output. -/
theorem claim_C7_whole_token_suffix_matching (name w : List Char)
    (hw : w ∈ pySplit (depunct name))
    (hne : ∀ t ∈ suffixes, pyUpper w ≠ t) :
    w ∈ (pySplit (depunct name)).filter (fun t => !(decide (pyUpper t ∈ suffixes))) ∧
    List.IsInfix w (clean_company_name name) := by
  have hnotin : ¬ pyUpper w ∈ suffixes := fun hmem => hne (pyUpper w) hmem rfl
  have hkept : w ∈ (pySplit (depunct name)).filter
      (fun t => !(decide (pyUpper t ∈ suffixes))) :=
    List.mem_filter.2 ⟨hw, by simpa using hnotin⟩
  refine ⟨hkept, ?_⟩
  rw [clean_company_name_eq_join name]
  exact mem_joinSpace_isInfix w _ hkept

/-- Claim C7 witness: `"Incorporation"` embeds the suffix `"INC"` but is
not stripped from `"Apple Incorporation LLC"`. -/
theorem claim_C7_witness :
    chars "Incorporation" ∈ (pySplit (depunct (chars "Apple Incorporation LLC"))).filter
      (fun t => !(decide (pyUpper t ∈ suffixes))) ∧
    List.IsInfix (chars "Incorporation")
      (clean_company_name (chars "Apple Incorporation LLC")) :=
  claim_C7_whole_token_suffix_matching (chars "Apple Incorporation LLC")
    (chars "Incorporation") (by decide) (by decide)

/-- Claim C8: the name cleaner is idempotent: cleaning a cleaned name
returns it unchanged. -/
theorem claim_C8_clean_idempotent (name : List Char) :
    clean_company_name (clean_company_name name) = clean_company_name name := by
  have h1 := clean_company_name_eq_join name
  set ks := (pySplit (depunct name)).filter (fun w => !(decide (pyUpper w ∈ suffixes)))
    with hks
  have hgood : ∀ t ∈ ks, t ≠ [] ∧ ∀ c ∈ t, pyIsSpace c = false := by
    intro t ht
    rw [hks] at ht
    exact pySplit_good _ t (List.mem_filter.1 ht).1
  have hnp : ∀ c ∈ joinSpace ks, (!(c == '.' || c == ',')) = true := by
    intro c hc
    rcases mem_joinSpace ks c hc with h | ⟨t, ht, hct⟩
    · subst h; decide
    · rw [hks] at ht
      have hcd : c ∈ depunct name :=
        pySplit_subset _ t (List.mem_filter.1 ht).1 c hct
      unfold depunct at hcd
      exact (List.mem_filter.1 hcd).2
  have h2 : depunct (joinSpace ks) = joinSpace ks := List.filter_eq_self.2 hnp
  have h3 : pySplit (joinSpace ks) = ks := pySplit_joinSpace ks hgood
  have h4 : ks.filter (fun w => !(decide (pyUpper w ∈ suffixes))) = ks := by
    rw [hks]
    exact List.filter_eq_self.2 (fun t ht => (List.mem_filter.1 ht).2)
  rw [h1]
  unfold clean_company_name
  rw [h2, h3, h4]
  exact pyStrip_joinSpace ks hgood

/-- Claim C10: the cleaner output contains no dot, no comma, starts and
ends with non-whitespace, and never contains two adjacent spaces. -/
theorem claim_C10_output_invariants (name : List Char) :
    ('.' ∉ clean_company_name name) ∧
    (',' ∉ clean_company_name name) ∧
    (∀ c rest, clean_company_name name = c :: rest → pyIsSpace c = false) ∧
    (∀ c rest, (clean_company_name name).reverse = c :: rest → pyIsSpace c = false) ∧
    ¬ List.IsInfix [' ', ' '] (clean_company_name name) := by
  have h1 := clean_company_name_eq_join name
  set ks := (pySplit (depunct name)).filter (fun w => !(decide (pyUpper w ∈ suffixes)))
    with hks
  have hgood : ∀ t ∈ ks, t ≠ [] ∧ ∀ c ∈ t, pyIsSpace c = false := by
    intro t ht
    rw [hks] at ht
    exact pySplit_good _ t (List.mem_filter.1 ht).1
  have hpunct : ∀ (c : Char), c ∈ joinSpace ks → c ≠ '.' ∧ c ≠ ',' := by
    intro c hc
    rcases mem_joinSpace ks c hc with h | ⟨t, ht, hct⟩
    · subst h; refine ⟨by decide, by decide⟩
    · rw [hks] at ht
      have hcd : c ∈ depunct name :=
        pySplit_subset _ t (List.mem_filter.1 ht).1 c hct
      unfold depunct at hcd
      have := (List.mem_filter.1 hcd).2
      simp at this
      exact this
  rw [h1]
  refine ⟨?_, ?_, ?_, ?_, ?_⟩
  · intro hc
    exact absurd rfl (hpunct '.' hc).1
  · intro hc
    exact absurd rfl (hpunct ',' hc).2
  · intro c rest hcr
    cases hks0 : ks with
    | nil => rw [hks0] at hcr; simp [joinSpace] at hcr
    | cons t ts =>
      obtain ⟨ht, hns⟩ := hgood t (by rw [hks0]; simp)
      obtain ⟨u, hu⟩ := joinSpace_cons t ts
      rw [hks0, hu] at hcr
      cases t with
      | nil => exact absurd rfl ht
      | cons a t2 =>
        have hcr2 : a :: (t2 ++ u) = c :: rest := by simpa using hcr
        injection hcr2 with h5 _
        rw [← h5]
        exact hns a (by simp)
  · intro c rest hcr
    cases hks0 : ks with
    | nil => rw [hks0] at hcr; simp [joinSpace] at hcr
    | cons t ts =>
      obtain ⟨c2, r2, hcr2, hc2⟩ := joinSpace_reverse_head (t :: ts)
        (hks0 ▸ hgood) (by simp)
      rw [hks0, hcr2] at hcr
      injection hcr with h5 _
      rw [← h5]
      exact hc2
  · exact chain'_no_double_space _ (chain'_joinSpace ks hgood)

/-- Claim C10 witness: the head of the cleaned `"Acme, Inc."` is the
non-whitespace character `A`. -/
theorem claim_C10_witness : pyIsSpace 'A' = false :=
  (claim_C10_output_invariants (chars "Acme, Inc.")).2.2.1 'A' (chars "cme") (by decide)

/-- Claim C5: the email extractor returns exactly the texts of the
left-to-right non-overlapping matches of the email pattern, in order of
appearance and without deduplication: the recorded intervals are strictly
ordered and disjoint, every recorded text is an email-shaped match
occurring at its position, every position admitting a match is covered by
a recorded interval, and empty or matchless input yields the empty
sequence. -/
theorem claim_C5_extract_emails_matches (p : List Char) :
    extract_emails p = (findallPos 0 (pyStrip p)).map (fun e => e.2.2) ∧
    Nonoverlapping (findallPos 0 (pyStrip p)) ∧
    (∀ e ∈ findallPos 0 (pyStrip p),
      EmailShape e.2.2 ∧ e.2.1 = e.1 + e.2.2.length ∧
      (pyStrip p).drop e.1 = e.2.2 ++ (pyStrip p).drop e.2.1) ∧
    (∀ j, (matchAt ((pyStrip p).drop j)).isSome = true →
      ∃ e ∈ findallPos 0 (pyStrip p), e.1 ≤ j ∧ j < e.2.1) ∧
    (pyStrip p = [] → extract_emails p = []) ∧
    ((∀ j, matchAt ((pyStrip p).drop j) = none) → extract_emails p = []) := by
  refine ⟨rfl, findallPos_nonoverlap _, ?_, findallPos_complete _, ?_, ?_⟩
  · intro e he
    obtain ⟨h2, h3⟩ := findallPos_mem_spec _ e he
    obtain ⟨hs, _, hsh⟩ := matchAt_spec h3
    exact ⟨hsh, h2, hs⟩
  · intro h0
    unfold extract_emails
    rw [h0]
    rfl
  · intro hnone
    unfold extract_emails
    cases hfp : findallPos 0 (pyStrip p) with
    | nil => rfl
    | cons e t =>
      exfalso
      have hsp := (findallPos_mem_spec _ e (by rw [hfp]; simp)).2
      rw [hnone e.1] at hsp
      simp at hsp

/-- Claim C5 witness: in `"contact a@b.com or a@b.com"` the position of the
first `a` is covered by a recorded match interval. -/
theorem claim_C5_witness :
    ∃ e ∈ findallPos 0 (pyStrip (chars "contact a@b.com or a@b.com")),
      e.1 ≤ 8 ∧ 8 < e.2.1 :=
  (claim_C5_extract_emails_matches (chars "contact a@b.com or a@b.com")).2.2.2.1 8 (by decide)

/-- Claim C1: the bulk path maps N input rows to N output rows in input
order; a row whose transform raises yields a degraded row with the literal
sentinel "ERROR" in the emails column, all four address columns absent and
the row's raw company text, and every other row is transformed normally. -/
theorem claim_C1_bulk_row_isolation (rows : List (RawRow × Bool)) :
    (transform_batch rows).length = rows.length ∧
    (∀ (k : Nat) (r : RawRow), rows[k]? = some (r, true) →
      (transform_batch rows)[k]? = some
        { companyName := r.company, emails := chars "ERROR",
          street := none, city := none, state := none, zip_code := none }) ∧
    (∀ (k : Nat) (r : RawRow), rows[k]? = some (r, false) →
      (transform_batch rows)[k]? = some (processRow r)) := by
  refine ⟨by unfold transform_batch; exact List.length_map _ _, ?_, ?_⟩
  · intro k r hk
    unfold transform_batch
    rw [List.getElem?_map, hk]
    rfl
  · intro k r hk
    unfold transform_batch
    rw [List.getElem?_map, hk]
    rfl

/-- Claim C1 witness: a two-row batch whose second row fails keeps both
rows, degrading only the second. -/
theorem claim_C1_witness :
    (transform_batch
      [(⟨chars "Acme Inc", chars "contact a@b.com", chars "1 A St, Town, IL 62704"⟩, false),
       (⟨chars "Bad LLC", chars "x@y.z", chars "2 B St"⟩, true)]).length = 2 ∧
    (transform_batch
      [(⟨chars "Acme Inc", chars "contact a@b.com", chars "1 A St, Town, IL 62704"⟩, false),
       (⟨chars "Bad LLC", chars "x@y.z", chars "2 B St"⟩, true)])[1]? = some
      { companyName := chars "Bad LLC", emails := chars "ERROR",
        street := none, city := none, state := none, zip_code := none } := by
  have h := claim_C1_bulk_row_isolation
    [(⟨chars "Acme Inc", chars "contact a@b.com", chars "1 A St, Town, IL 62704"⟩, false),
     (⟨chars "Bad LLC", chars "x@y.z", chars "2 B St"⟩, true)]
  exact ⟨h.1.trans (by decide),
    h.2.1 1 ⟨chars "Bad LLC", chars "x@y.z", chars "2 B St"⟩ (by decide)⟩

end ExcelAgent
